import Mathlib

/-!
Verification development for the `rust_tuner` repository.

The core pitch-detection engine lives in `src/tuner.rs` (struct `Tuner`) and the
sample-buffer / detection-trigger loop in `src/main.rs`.  This file gives a
shallow embedding of those functions and proves / refutes the specification's
claims about them.

Modelling conventions:
* `f32` arithmetic is modelled as exact real arithmetic (`ℝ`);
* `u32` and `usize` are modelled as `Nat` (usize subtraction at the one place
  it occurs is `Nat` truncated subtraction, which agrees with the source on
  every reachable input);
* `i32` is modelled as `Int`; Rust's `/` and `%` on `i32` truncate toward
  zero, which is `Int.tdiv` / `Int.tmod`;
* `rustfft` is an external crate (not part of this repository); its planned
  forward FFT is modelled from the spec as the standard forward DFT.
-/

namespace RustTuner

open Real

/-- The chromatic note table `NOTES` (src/tuner.rs line 3):
`["A", "A#", "B", "C", "C#", "D", "D#", "E", "F", "F#", "G", "G#"]`. -/
def NOTES : List String := ["A", "A#", "B", "C", "C#", "D", "D#", "E", "F", "F#", "G", "G#"]

/-- Fallback string for the (never reached) out-of-bounds chromatic lookup.
In Rust `NOTES[note_index as usize]` would panic out of bounds; the lookup is
total here and we prove the index is always in range. -/
def NOTE_FALLBACK : String := "?"

/-- Struct `Tuner` (src/tuner.rs lines 5-9).  The `rustfft` planner field is
modelled as the list of FFT sizes planned so far: planning an FFT caches the
size and hands back the forward transform of that size. -/
structure Tuner where
  sample_rate : Nat
  fft_size : Nat
  planner : List Nat

/-- Complex magnitude `Complex::norm` for `Complex<f32>`: `sqrt(re² + im²)`.  Spectrum bins are
modelled as pairs (re, im) of reals. -/
noncomputable def cnorm (c : ℝ × ℝ) : ℝ := Real.sqrt (c.1 ^ 2 + c.2 ^ 2)

/-- Modelled from the spec: the forward FFT of the external `rustfft` crate is
"a standard forward discrete Fourier transform" whose bin `k` corresponds to
frequency `k * sampleRate / N` (spec §4.2), i.e.
`X_k = Σ_{n<N} x_n · exp(-2πi·k·n/N)`. -/
noncomputable def dft (x : List (ℝ × ℝ)) : List (ℝ × ℝ) :=
  let N := x.length
  let X : List ℂ := x.map (fun p => ⟨p.1, p.2⟩)
  (List.range N).map (fun (k : Nat) =>
    let z : ℂ := ∑ n ∈ Finset.range N,
      (X.getD n 0) * Complex.exp (-(2 * Real.pi * Complex.I * (k : ℂ) * (n : ℂ)) / (N : ℂ))
    (z.re, z.im))

/-- Modelled from the spec: `FftPlanner::plan_fft_forward` of the external
`rustfft` crate (not in src/); planning caches the size and returns the standard forward DFT
of the buffer it is later applied to; the cache state never changes the
transform that is returned. -/
noncomputable def plan_fft_forward (planner : List Nat) (n : Nat) :
    (List (ℝ × ℝ) → List (ℝ × ℝ)) × List Nat :=
  (dft, if n ∈ planner then planner else planner ++ [n])

/-- Constructor `Tuner::new` (src/tuner.rs lines 12-22): fixed FFT size 4096, one plan. -/
def Tuner.new (sample_rate : Nat) : Tuner :=
  { sample_rate := sample_rate, fft_size := 4096, planner := [4096] }

/-- Window coefficient `Tuner::hann_window` (src/tuner.rs lines 24-28):
`0.5 * (1 - cos(2π·i/(n-1)))`. -/
noncomputable def hann_window (index size : Nat) : ℝ :=
  let n : ℝ := size
  let i : ℝ := index
  0.5 * (1 - Real.cos (2 * Real.pi * i / (n - 1)))

/-- The slice of the accumulated buffer that `Tuner::detect_frequency` windows
and hands to the transform: `samples[..self.fft_size]` (src/tuner.rs line 35). -/
def analysis_window (t : Tuner) (samples : List ℝ) : List ℝ :=
  samples.take t.fft_size

/-- Parabolic refinement `Tuner::refine_frequency` (src/tuner.rs lines 80-97).  Parabolic
interpolation over the three magnitudes around the peak bin; skipped at the
edges of the half-spectrum and when the magnitude sum is below `1e-10`.
The usize expression `fft_result.len() / 2 - 1` is `Nat` subtraction. -/
noncomputable def refine_frequency (t : Tuner) (fft_result : List (ℝ × ℝ))
    (bin : Nat) (rough_freq : ℝ) : ℝ :=
  if bin = 0 ∨ fft_result.length / 2 - 1 ≤ bin then rough_freq
  else
    let mag_prev := cnorm (fft_result.getD (bin - 1) (0, 0))
    let mag_curr := cnorm (fft_result.getD bin (0, 0))
    let mag_next := cnorm (fft_result.getD (bin + 1) (0, 0))
    let denom := mag_prev + mag_curr + mag_next
    if denom < 1e-10 then rough_freq
    else
      let offset := (mag_next - mag_prev) / (2 * denom)
      let bin_center := (bin : ℝ) + offset
      bin_center * (t.sample_rate : ℝ) / (t.fft_size : ℝ)

open scoped Classical in
/-- The peak scan of `Tuner::detect_frequency` (src/tuner.rs lines 54-63):
maximum magnitude together with its first bin over bins `[0, fft_size/2)`,
strictly-greater comparison so the first occurrence wins. -/
noncomputable def peak_scan (t : Tuner) (complex_samples : List (ℝ × ℝ)) : ℝ × Nat :=
  (complex_samples.enum.take (t.fft_size / 2)).foldl
    (fun acc ic => if cnorm ic.2 > acc.1 then (cnorm ic.2, ic.1) else acc)
    ((0 : ℝ), (0 : Nat))

open scoped Classical in
/-- The spectrum-consuming part of `Tuner::detect_frequency`
(src/tuner.rs lines 54-77): peak scan, absolute magnitude floor `0.01`, rough
frequency `bin * sample_rate / fft_size`, sub-bin refinement, and the final
open-interval range check `(20, 5000)`.  Factored out of `detect_frequency`
so properties can be stated over arbitrary spectra. -/
noncomputable def detect_from_spectrum (t : Tuner) (complex_samples : List (ℝ × ℝ)) :
    Option ℝ :=
  let scan := peak_scan t complex_samples
  let max_magnitude := scan.1
  let max_bin := scan.2
  if max_magnitude < 0.01 then none
  else
    let freq := ((max_bin : ℝ) * (t.sample_rate : ℝ)) / (t.fft_size : ℝ)
    let refined_freq := refine_frequency t complex_samples max_bin freq
    if refined_freq > 20 ∧ refined_freq < 5000 then some refined_freq else none

/-- Detection `Tuner::detect_frequency` (src/tuner.rs lines 30-78).  Takes `&mut self`
in Rust (the planner caches plans), so the embedding returns the result
together with the updated tuner state.  `Vec::resize(fft_size, 0)` is modelled
exactly: truncate or zero-extend to `fft_size`. -/
noncomputable def detect_frequency (t : Tuner) (samples : List ℝ) : Option ℝ × Tuner :=
  if samples.length < t.fft_size then (none, t)
  else
    let windowed := (analysis_window t samples).enum.map
      (fun p => p.2 * hann_window p.1 t.fft_size)
    let complex0 := windowed.map (fun s => ((s, (0 : ℝ)) : ℝ × ℝ))
    let complex_samples := complex0.take t.fft_size ++
      List.replicate (t.fft_size - complex0.length) ((0 : ℝ), (0 : ℝ))
    let fp := plan_fft_forward t.planner t.fft_size
    let transformed := fp.1 complex_samples
    (detect_from_spectrum t transformed, { t with planner := fp.2 })

/-- Rounding `f32::round`: round to nearest, ties away from zero.  (Mathlib's `round`
rounds ties toward `+∞`, which differs from Rust on negative half-integers.) -/
noncomputable def rust_round (x : ℝ) : ℤ :=
  if 0 ≤ x then round x else -round (-x)

/-- The note-index arithmetic of src/tuner.rs line 103:
`((rounded_semitones % 12) + 12) % 12` with `i32` truncating `%`. -/
def note_index_of (rounded_semitones : ℤ) : ℤ :=
  Int.tmod (Int.tmod rounded_semitones 12 + 12) 12

/-- Mapping `Tuner::frequency_to_note` (src/tuner.rs lines 99-110).  The Rust method
takes `&self` but reads no field, so the embedding drops the receiver.
`f32::log2` is `Real.logb 2`, `2.0f32.powf` is real exponentiation, the
octave division `(rounded_semitones + 9) / 12` is `i32` truncating division. -/
noncomputable def frequency_to_note (frequency a4_freq : ℝ) : String × ℤ × ℝ :=
  let semitones_from_a4 := 12 * Real.logb 2 (frequency / a4_freq)
  let rounded_semitones := rust_round semitones_from_a4
  let octave := 4 + Int.tdiv (rounded_semitones + 9) 12
  let note_index := note_index_of rounded_semitones
  let note_name := NOTES.getD note_index.toNat NOTE_FALLBACK
  let target_freq := a4_freq * (2 : ℝ) ^ ((rounded_semitones : ℝ) / 12)
  let deviation_cents := 1200 * Real.logb 2 (frequency / target_freq)
  (note_name, octave, deviation_cents)

/-- Inverse mapping `Tuner::note_name_to_frequency` (src/tuner.rs lines 112-116):
`position(..).unwrap_or(0)` is a lookup in `NOTES` defaulting to index 0. -/
noncomputable def note_name_to_frequency (note_name : String) (octave : ℤ)
    (a4_freq : ℝ) : ℝ :=
  let note_index : ℤ := ((NOTES.findIdx? (fun n => n == note_name)).getD 0 : Nat)
  let semitones_from_a4 := (octave - 4) * 12 + (note_index - 9)
  a4_freq * (2 : ℝ) ^ ((semitones_from_a4 : ℝ) / 12)

/-- One iteration of the sample-drain loop body in `main`
(src/main.rs lines 80-101): append the received block; if the buffer is
strictly longer than 4096 samples, run a detection pass and trim the buffer to
its most recent 2048 samples (`drain(0..len.saturating_sub(2048))`).
Returns (new buffer, whether a detection pass ran, new tuner state). -/
noncomputable def main_loop_step (t : Tuner) (buffer block : List ℝ) :
    List ℝ × Bool × Tuner :=
  let buf := buffer ++ block
  if 4096 < buf.length then
    let r := detect_frequency t buf
    (buf.drop (buf.length - 2048), true, r.2)
  else (buf, false, t)

/-- Folding `main_loop_step` over a list of received sample blocks, starting
from an empty buffer; the `Bool` reports whether the last append ran a
detection pass. -/
noncomputable def main_loop_run (t : Tuner) (blocks : List (List ℝ)) :
    List ℝ × Bool × Tuner :=
  blocks.foldl (fun st blk => main_loop_step st.2.2 st.1 blk)
    (([] : List ℝ), false, t)

/-! ### Helper lemmas -/

/-- Truncating remainder is odd in its first argument. -/
lemma neg_tmod_left (a b : ℤ) : Int.tmod (-a) b = -Int.tmod a b := by
  simp only [Int.tmod_def, Int.neg_tdiv]
  ring

/-- Truncating remainder by 12 is strictly above `-12`. -/
lemma tmod_twelve_lower_bound (s : ℤ) : -12 < Int.tmod s 12 := by
  have h := Int.tmod_lt_of_pos (-s) (show (0 : ℤ) < 12 by norm_num)
  have h2 : Int.tmod s 12 = -Int.tmod (-s) 12 := by
    rw [← neg_tmod_left, neg_neg]
  omega

/-- The double-remainder note index lands in `[0, 12)` for every semitone
offset. -/
lemma note_index_of_nonneg_lt (s : ℤ) :
    0 ≤ note_index_of s ∧ note_index_of s < 12 := by
  unfold note_index_of
  constructor
  · apply Int.tmod_nonneg
    have := tmod_twelve_lower_bound s
    omega
  · exact Int.tmod_lt_of_pos _ (by norm_num)

/-- The chromatic lookup in `frequency_to_note` never reaches the fallback. -/
lemma getD_note_index_mem (r : ℤ) :
    NOTES.getD (note_index_of r).toNat NOTE_FALLBACK ∈ NOTES := by
  have h := note_index_of_nonneg_lt r
  have hlt : (note_index_of r).toNat < NOTES.length := by
    simp only [NOTES, List.length_cons, List.length_nil]
    omega
  rw [List.getD_eq_getElem?_getD, List.getElem?_eq_getElem hlt]
  simp only [Option.getD_some]
  exact List.getElem_mem hlt

/-- Rounding an integer returns it: `rust_round` is the identity on casts. -/
lemma rust_round_intCast (n : ℤ) : rust_round ((n : ℝ)) = n := by
  unfold rust_round
  by_cases h : (0 : ℝ) ≤ (n : ℝ)
  · simp [h]
  · rw [if_neg h, ← Int.cast_neg, round_intCast, neg_neg]

/-- Planner irrelevance: `detect_from_spectrum` ignores the cache field. -/
lemma detect_from_spectrum_planner_irrel (sr n : Nat) (p q : List Nat)
    (sp : List (ℝ × ℝ)) :
    detect_from_spectrum ⟨sr, n, p⟩ sp = detect_from_spectrum ⟨sr, n, q⟩ sp := rfl

/-- Hann-windowing an all-zero window yields all zeros. -/
lemma windowed_zero (n m : Nat) :
    (List.enum (List.replicate n (0 : ℝ))).map (fun p => p.2 * hann_window p.1 m) =
      List.replicate n 0 := by
  refine List.eq_replicate_iff.mpr ⟨?_, ?_⟩
  · rw [List.length_map, List.enum_length, List.length_replicate]
  · intro b hb
    obtain ⟨p, hp, rfl⟩ := List.mem_map.1 hb
    have h2 := List.mem_enum_iff_getElem?.1 hp
    rw [List.getElem?_replicate] at h2
    by_cases hlt : p.1 < n
    · rw [if_pos hlt] at h2
      rw [(Option.some.inj h2).symm, zero_mul]
    · rw [if_neg hlt] at h2
      exact absurd h2 (by simp)

/-- The all-zero complex list viewed through the complex constructor. -/
lemma mk_zero_complex : ((⟨(0 : ℝ), (0 : ℝ)⟩ : ℂ)) = 0 := by
  apply Complex.ext <;> simp

/-- Reading an all-zero replicate with default 0 gives 0 at every index. -/
lemma getD_replicate_zero (n m : Nat) :
    (List.replicate n (0 : ℂ)).getD m 0 = 0 := by
  rw [List.getD_eq_getElem?_getD, List.getElem?_replicate]
  by_cases h : m < n
  · rw [if_pos h]
    rfl
  · rw [if_neg h]
    rfl

/-- Any twiddle-weighted sum over an all-zero signal vanishes. -/
lemma sum_zero_mul (n : Nat) (f : Nat → ℂ) :
    (∑ i ∈ Finset.range n, (List.replicate n (0 : ℂ)).getD i 0 * f i) = 0 :=
  Finset.sum_eq_zero fun i _ => by rw [getD_replicate_zero, zero_mul]

/-- The standard forward DFT of an all-zero buffer is all-zero. -/
lemma dft_zero (n : Nat) :
    dft (List.replicate n ((0 : ℝ), (0 : ℝ))) = List.replicate n ((0 : ℝ), (0 : ℝ)) := by
  simp only [dft, List.map_replicate, mk_zero_complex, List.length_replicate,
    sum_zero_mul, Complex.zero_re, Complex.zero_im]
  rw [List.map_const', List.length_range]

/-- The peak-scan fold leaves the zero accumulator unchanged over bins of
zero magnitude. -/
lemma peak_scan_zero_fold (l : List (Nat × (ℝ × ℝ))) (b : Nat)
    (h : ∀ p ∈ l, cnorm p.2 = 0) :
    l.foldl (fun acc ic => if cnorm ic.2 > acc.1 then (cnorm ic.2, ic.1) else acc)
      ((0 : ℝ), b) = (0, b) := by
  induction l generalizing b with
  | nil => rfl
  | cons p l ih =>
    rw [List.foldl_cons]
    have hp : cnorm p.2 = 0 := h p (List.mem_cons_self _ _)
    simp only [hp, gt_iff_lt, lt_self_iff_false, if_false]
    exact ih b fun q hq => h q (List.mem_cons_of_mem _ hq)

/-- The peak scan of an all-zero spectrum reports magnitude 0 at bin 0. -/
lemma peak_scan_replicate_zero (t : Tuner) (n : Nat) :
    peak_scan t (List.replicate n ((0 : ℝ), (0 : ℝ))) = (0, 0) := by
  unfold peak_scan
  apply peak_scan_zero_fold
  intro p hp
  have hp2 := List.mem_enum_iff_getElem?.1 (List.mem_of_mem_take hp)
  rw [List.getElem?_replicate] at hp2
  by_cases hlt : p.1 < n
  · rw [if_pos hlt] at hp2
    rw [(Option.some.inj hp2).symm]
    simp [cnorm]
  · rw [if_neg hlt] at hp2
    exact absurd hp2 (by simp)

/-! ### Claim theorems -/

/-- Claim C1 (refuted; code bug).  The octave computed by `frequency_to_note` does NOT equal
`4 + floorDiv(roundedSemitones + 9, 12)` on notes below C4: Rust's `i32`
division truncates toward zero, so at 220 Hz (A one octave below an A4
reference of 440 Hz, `roundedSemitones = -12`) the code computes octave
`4 + trunc(-3 / 12) = 4`, while the claimed floor division gives
`4 + floor(-3 / 12) = 3`. -/
theorem octave_uses_truncating_division :
    (frequency_to_note 220 440).2.1 = 4 ∧
    4 + Int.fdiv (rust_round (12 * Real.logb 2 ((220 : ℝ) / 440)) + 9) 12 = 3 := by
  have hlog : Real.logb 2 ((220 : ℝ) / 440) = -1 := by
    rw [show (220 : ℝ) / 440 = 2⁻¹ by norm_num, Real.logb_inv,
      Real.logb_self_eq_one (by norm_num)]
  have hr : rust_round (12 * Real.logb 2 ((220 : ℝ) / 440)) = -12 := by
    rw [hlog, show (12 : ℝ) * (-1 : ℝ) = ((-12 : ℤ) : ℝ) by norm_num, rust_round_intCast]
  constructor
  · simp only [frequency_to_note]
    rw [hr]
    decide
  · rw [hr]
    decide

/-- Claim C2 (refuted; code bug).  The maps `frequency_to_note` and
`note_name_to_frequency` are NOT inverses:
`note_name_to_frequency` indexes the A-based `NOTES` table with a formula that
assumes a C-based table, so `note_name_to_frequency("A", 4, 440)` lands 9
semitones below A4 (≈ 261.63 Hz, which is C4) and the round trip returns note
"C" instead of "A". -/
theorem roundtrip_A4_gives_C :
    (frequency_to_note (note_name_to_frequency "A" 4 440) 440).1 ≠ "A" ∧
    (frequency_to_note (note_name_to_frequency "A" 4 440) 440).1 = "C" := by
  have hidx : ((NOTES.findIdx? (fun n => n == "A")).getD 0 : Nat) = 0 := rfl
  have hf : note_name_to_frequency "A" 4 440 = 440 * (2 : ℝ) ^ ((-9 : ℝ) / 12) := by
    simp only [note_name_to_frequency, hidx]
    norm_num
  have hlogb : Real.logb 2 (note_name_to_frequency "A" 4 440 / 440) = (-9 : ℝ) / 12 := by
    rw [hf, show (440 * (2 : ℝ) ^ ((-9 : ℝ) / 12)) / 440 = (2 : ℝ) ^ ((-9 : ℝ) / 12) by
      field_simp]
    exact Real.logb_rpow (by norm_num) (by norm_num)
  have hr : rust_round (12 * Real.logb 2 (note_name_to_frequency "A" 4 440 / 440)) = -9 := by
    rw [hlogb, show (12 : ℝ) * ((-9 : ℝ) / 12) = ((-9 : ℤ) : ℝ) by norm_num, rust_round_intCast]
  constructor
  · simp only [frequency_to_note]
    rw [hr]
    decide
  · simp only [frequency_to_note]
    rw [hr]
    decide

/-- Claim C10 (confirmed).  The map `frequency_to_note` is total and its note name is always one of
the fixed 12 chromatic strings: for every semitone offset the double-remainder
index `((s % 12) + 12) % 12` lies in `[0, 12)`, and for every frequency and
reference the returned name is an entry of `NOTES`, so the table lookup never
goes out of bounds. -/
theorem note_index_always_in_range :
    (∀ s : ℤ, 0 ≤ note_index_of s ∧ note_index_of s < 12) ∧
    ∀ f a4 : ℝ, (frequency_to_note f a4).1 ∈ NOTES := by
  refine ⟨note_index_of_nonneg_lt, fun f a4 => ?_⟩
  unfold frequency_to_note
  exact getD_note_index_mem _

/-- A loop iteration that does not cross the strict 4096 threshold only
appends. -/
lemma main_loop_step_no_trigger (t : Tuner) (buffer block : List ℝ)
    (h : ¬4096 < (buffer ++ block).length) :
    main_loop_step t buffer block = (buffer ++ block, false, t) := by
  simp only [main_loop_step]
  rw [if_neg h]

/-- Four 1024-sample blocks appended to an empty buffer never cross the
strict 4096 threshold: the final buffer is their concatenation and no
detection pass ran. -/
lemma run_four_blocks :
    main_loop_run (Tuner.new 44100)
        [List.replicate 1024 (0 : ℝ), List.replicate 1024 0, List.replicate 1024 0,
          List.replicate 1024 0] =
      (List.replicate 1024 (0 : ℝ) ++ List.replicate 1024 0 ++ List.replicate 1024 0 ++
        List.replicate 1024 0, false, Tuner.new 44100) := by
  have s1 := main_loop_step_no_trigger (Tuner.new 44100) [] (List.replicate 1024 (0 : ℝ))
    (by simp only [List.nil_append, List.length_replicate]; omega)
  rw [List.nil_append] at s1
  have s2 := main_loop_step_no_trigger (Tuner.new 44100) (List.replicate 1024 (0 : ℝ))
    (List.replicate 1024 (0 : ℝ))
    (by simp only [List.length_append, List.length_replicate]; omega)
  have s3 := main_loop_step_no_trigger (Tuner.new 44100)
    (List.replicate 1024 (0 : ℝ) ++ List.replicate 1024 0) (List.replicate 1024 (0 : ℝ))
    (by simp only [List.length_append, List.length_replicate]; omega)
  have s4 := main_loop_step_no_trigger (Tuner.new 44100)
    (List.replicate 1024 (0 : ℝ) ++ List.replicate 1024 0 ++ List.replicate 1024 0)
    (List.replicate 1024 (0 : ℝ))
    (by simp only [List.length_append, List.length_replicate]; omega)
  simp only [main_loop_run, List.foldl_cons, List.foldl_nil, s1, s2, s3, s4]

/-- Claim C3 counterexample.  The analysis window is NOT the last 4096 samples
of the buffer: on the 4097-sample buffer `replicate 4096 1 ++ [0]` the slice
handed to the transform consists of the 4096 leading ones, while the last
4096 samples end with the trailing 0. -/
theorem analysis_window_not_last_samples :
    analysis_window (Tuner.new 44100) (List.replicate 4096 (1 : ℝ) ++ [0]) ≠
      (List.replicate 4096 (1 : ℝ) ++ [0]).drop
        ((List.replicate 4096 (1 : ℝ) ++ [0]).length - 4096) := by
  have hwin : analysis_window (Tuner.new 44100) (List.replicate 4096 (1 : ℝ) ++ [0]) =
      List.replicate 4096 (1 : ℝ) := by
    show List.take 4096 _ = _
    exact List.take_left' (List.length_replicate _ _)
  have hlen : (List.replicate 4096 (1 : ℝ) ++ [0]).length - 4096 = 1 := by
    simp only [List.length_append, List.length_replicate, List.length_cons,
      List.length_nil]
  have hdrop : (List.replicate 4096 (1 : ℝ) ++ [0]).drop 1 =
      List.replicate 4095 (1 : ℝ) ++ [0] := by
    rw [List.drop_append_of_le_length (by rw [List.length_replicate]; omega),
      List.drop_replicate, show (4096 : Nat) - 1 = 4095 by omega]
  rw [hwin, hlen, hdrop,
    show List.replicate 4096 (1 : ℝ) = List.replicate 4095 1 ++ [1] by
      rw [show (4096 : Nat) = 4095 + 1 by norm_num, List.replicate_succ']]
  intro h
  have h1 := List.append_cancel_left h
  have h2 : (1 : ℝ) = 0 := by
    injection h1
  norm_num at h2

/-- Claim C3 amended.  Each detection pass analyzes the FIRST 4096 samples of
the accumulated buffer: for every buffer holding at least 4096 samples, the
slice handed to windowing and the transform is a length-4096 prefix of the
buffer. -/
theorem analysis_window_first_4096 (sr : Nat) (samples : List ℝ)
    (h : 4096 ≤ samples.length) :
    analysis_window (Tuner.new sr) samples ++ samples.drop 4096 = samples ∧
    (analysis_window (Tuner.new sr) samples).length = 4096 := by
  constructor
  · exact List.take_append_drop 4096 samples
  · simp only [analysis_window, Tuner.new, List.length_take]
    omega

/-- Witness for C3 (amended): on a concrete 4096-sample buffer the window is
the whole buffer and has length 4096. -/
theorem analysis_window_first_4096_witness :
    4096 ≤ (List.replicate 4096 (0 : ℝ)).length ∧
    (analysis_window (Tuner.new 44100) (List.replicate 4096 (0 : ℝ)) ++
        (List.replicate 4096 (0 : ℝ)).drop 4096 = List.replicate 4096 (0 : ℝ) ∧
      (analysis_window (Tuner.new 44100) (List.replicate 4096 (0 : ℝ))).length = 4096) :=
  ⟨by simp only [List.length_replicate, le_refl],
    analysis_window_first_4096 44100 _ (by simp only [List.length_replicate, le_refl])⟩

/-- Claim C4 counterexample.  Appending four consecutive 1024-sample blocks to
an empty buffer (total exactly 4096) does NOT trigger a detection pass: the
loop requires the buffer length to be strictly greater than 4096. -/
theorem no_detection_on_fourth_append :
    (main_loop_run (Tuner.new 44100)
        [List.replicate 1024 (0 : ℝ), List.replicate 1024 0, List.replicate 1024 0,
          List.replicate 1024 0]).2.1 = false := by
  rw [run_four_blocks]

/-- Claim C4 amended.  A detection pass runs on an append exactly when the
buffer length strictly exceeds 4096 afterwards; in particular four 1024-sample
blocks (total 4096) trigger nothing, and a fifth block (total 5120) triggers
a detection pass. -/
theorem detection_trigger_strictly_greater :
    (∀ (t : Tuner) (buffer block : List ℝ),
        (main_loop_step t buffer block).2.1 = true ↔ 4096 < (buffer ++ block).length) ∧
    (main_loop_run (Tuner.new 44100)
        [List.replicate 1024 (0 : ℝ), List.replicate 1024 0, List.replicate 1024 0,
          List.replicate 1024 0]).2.1 = false ∧
    (main_loop_run (Tuner.new 44100)
        [List.replicate 1024 (0 : ℝ), List.replicate 1024 0, List.replicate 1024 0,
          List.replicate 1024 0, List.replicate 1024 0]).2.1 = true := by
  refine ⟨fun t buffer block => ?_, by rw [run_four_blocks], ?_⟩
  · simp only [main_loop_step]
    by_cases h : 4096 < (buffer ++ block).length
    · rw [if_pos h]
      simpa using h
    · rw [if_neg h]
      simpa using h
  · have s1 := main_loop_step_no_trigger (Tuner.new 44100) [] (List.replicate 1024 (0 : ℝ))
      (by simp only [List.nil_append, List.length_replicate]; omega)
    rw [List.nil_append] at s1
    have s2 := main_loop_step_no_trigger (Tuner.new 44100) (List.replicate 1024 (0 : ℝ))
      (List.replicate 1024 (0 : ℝ))
      (by simp only [List.length_append, List.length_replicate]; omega)
    have s3 := main_loop_step_no_trigger (Tuner.new 44100)
      (List.replicate 1024 (0 : ℝ) ++ List.replicate 1024 0) (List.replicate 1024 (0 : ℝ))
      (by simp only [List.length_append, List.length_replicate]; omega)
    have s4 := main_loop_step_no_trigger (Tuner.new 44100)
      (List.replicate 1024 (0 : ℝ) ++ List.replicate 1024 0 ++ List.replicate 1024 0)
      (List.replicate 1024 (0 : ℝ))
      (by simp only [List.length_append, List.length_replicate]; omega)
    have s5 : (main_loop_step (Tuner.new 44100)
        (List.replicate 1024 (0 : ℝ) ++ List.replicate 1024 0 ++ List.replicate 1024 0 ++
          List.replicate 1024 0) (List.replicate 1024 (0 : ℝ))).2.1 = true := by
      simp only [main_loop_step]
      rw [if_pos (by simp only [List.length_append, List.length_replicate]; omega)]
    simp only [main_loop_run, List.foldl_cons, List.foldl_nil, s1, s2, s3, s4]
    exact s5

/-- Claim C5 (confirmed).  Whenever the detector returns a frequency rather than "no pitch",
that frequency lies strictly inside the open interval (20, 5000). -/
theorem detected_frequency_in_open_range (t : Tuner) (sp : List (ℝ × ℝ)) (f : ℝ)
    (h : detect_from_spectrum t sp = some f) : 20 < f ∧ f < 5000 := by
  simp only [detect_from_spectrum] at h
  split_ifs at h with h1 h2
  obtain rfl := Option.some.inj h
  exact ⟨h2.1, h2.2⟩

/-- Witness for C5: a concrete 8-bin spectrum with its peak of magnitude 10 at
bin 1 is detected as 100 Hz at sample rate 800, and 100 lies in (20, 5000). -/
theorem detected_frequency_in_open_range_witness :
    detect_from_spectrum ⟨800, 8, []⟩
        [((3 : ℝ), (4 : ℝ)), (6, 8), (3, 4), (3, 4), (3, 4), (3, 4), (3, 4), (3, 4)] =
      some 100 ∧ (20 < (100 : ℝ) ∧ (100 : ℝ) < 5000) := by
  have c5 : cnorm ((3 : ℝ), (4 : ℝ)) = 5 := by
    rw [cnorm, show ((3 : ℝ), (4 : ℝ)).1 ^ 2 + ((3 : ℝ), (4 : ℝ)).2 ^ 2 = 5 ^ 2 by norm_num,
      Real.sqrt_sq (by norm_num : (0 : ℝ) ≤ 5)]
  have c10 : cnorm ((6 : ℝ), (8 : ℝ)) = 10 := by
    rw [cnorm, show ((6 : ℝ), (8 : ℝ)).1 ^ 2 + ((6 : ℝ), (8 : ℝ)).2 ^ 2 = 10 ^ 2 by norm_num,
      Real.sqrt_sq (by norm_num : (0 : ℝ) ≤ 10)]
  have hscan : peak_scan ⟨800, 8, []⟩
      [((3 : ℝ), (4 : ℝ)), (6, 8), (3, 4), (3, 4), (3, 4), (3, 4), (3, 4), (3, 4)] =
      (10, 1) := by
    norm_num [peak_scan, List.enum, List.enumFrom, c5, c10]
  have href : refine_frequency ⟨800, 8, []⟩
      [((3 : ℝ), (4 : ℝ)), (6, 8), (3, 4), (3, 4), (3, 4), (3, 4), (3, 4), (3, 4)] 1 100 =
      100 := by
    norm_num [refine_frequency, c5, c10]
  have heval : detect_from_spectrum ⟨800, 8, []⟩
      [((3 : ℝ), (4 : ℝ)), (6, 8), (3, 4), (3, 4), (3, 4), (3, 4), (3, 4), (3, 4)] =
      some 100 := by
    norm_num [detect_from_spectrum, hscan, href]
  exact ⟨heval, detected_frequency_in_open_range _ _ _ heval⟩

/-- Claim C6 (confirmed).  Sub-bin refinement computes
`offset = (mag[bin+1] - mag[bin-1]) / (2 * (mag[bin-1] + mag[bin] + mag[bin+1]))`
and returns `(bin + offset) * sampleRate / N`, except that the rough frequency
is returned unchanged when the peak bin is 0, when the peak bin is within one
bin of the top of the valid half-spectrum, or when the three-magnitude sum is
below `1e-10`.  (At the call site `rough_freq = bin * sampleRate / N`.) -/
theorem refine_frequency_parabolic_formula (t : Tuner) (sp : List (ℝ × ℝ))
    (bin : Nat) (rough : ℝ) :
    refine_frequency t sp bin rough =
      if bin = 0 ∨ sp.length / 2 - 1 ≤ bin ∨
          cnorm (sp.getD (bin - 1) (0, 0)) + cnorm (sp.getD bin (0, 0)) +
            cnorm (sp.getD (bin + 1) (0, 0)) < 1e-10 then rough
      else
        ((bin : ℝ) +
            (cnorm (sp.getD (bin + 1) (0, 0)) - cnorm (sp.getD (bin - 1) (0, 0))) /
              (2 * (cnorm (sp.getD (bin - 1) (0, 0)) + cnorm (sp.getD bin (0, 0)) +
                cnorm (sp.getD (bin + 1) (0, 0))))) *
          (t.sample_rate : ℝ) / (t.fft_size : ℝ) := by
  simp only [refine_frequency]
  by_cases h1 : bin = 0 ∨ sp.length / 2 - 1 ≤ bin
  · have h3 : bin = 0 ∨ sp.length / 2 - 1 ≤ bin ∨
        cnorm (sp.getD (bin - 1) (0, 0)) + cnorm (sp.getD bin (0, 0)) +
          cnorm (sp.getD (bin + 1) (0, 0)) < 1e-10 := by tauto
    rw [if_pos h1, if_pos h3]
  · by_cases h2 : cnorm (sp.getD (bin - 1) (0, 0)) + cnorm (sp.getD bin (0, 0)) +
        cnorm (sp.getD (bin + 1) (0, 0)) < 1e-10
    · rw [if_neg h1, if_pos h2, if_pos (by tauto)]
    · rw [if_neg h1, if_neg h2, if_neg (by tauto)]

/-- Claim C9 (confirmed).  Refinement moves the frequency estimate by at most half a bin:
with the call-site rough frequency `bin * sampleRate / N`, the refined value
differs from it by at most `sampleRate / (2 * N)`, because the non-negative
magnitudes bound the interpolation offset by `1/2`. -/
theorem refine_frequency_half_bin_bound (t : Tuner) (sp : List (ℝ × ℝ)) (bin : Nat) :
    |refine_frequency t sp bin ((bin : ℝ) * (t.sample_rate : ℝ) / (t.fft_size : ℝ)) -
        (bin : ℝ) * (t.sample_rate : ℝ) / (t.fft_size : ℝ)| ≤
      (t.sample_rate : ℝ) / (2 * (t.fft_size : ℝ)) := by
  have hS : (0 : ℝ) ≤ (t.sample_rate : ℝ) := Nat.cast_nonneg _
  have hN : (0 : ℝ) ≤ (t.fft_size : ℝ) := Nat.cast_nonneg _
  have hRHS : (0 : ℝ) ≤ (t.sample_rate : ℝ) / (2 * (t.fft_size : ℝ)) := by positivity
  simp only [refine_frequency]
  split_ifs with h1 h2
  · simpa using hRHS
  · simpa using hRHS
  · set mp := cnorm (sp.getD (bin - 1) (0, 0)) with hmp
    set mc := cnorm (sp.getD bin (0, 0)) with hmc
    set mn := cnorm (sp.getD (bin + 1) (0, 0)) with hmn
    have hp : 0 ≤ mp := Real.sqrt_nonneg _
    have hc : 0 ≤ mc := Real.sqrt_nonneg _
    have hn : 0 ≤ mn := Real.sqrt_nonneg _
    have hd : (0 : ℝ) < mp + mc + mn := by
      have : (1e-10 : ℝ) ≤ mp + mc + mn := le_of_not_lt h2
      nlinarith
    have hoff : |(mn - mp) / (2 * (mp + mc + mn))| ≤ 1 / 2 := by
      rw [abs_div, abs_of_pos (by positivity : (0 : ℝ) < 2 * (mp + mc + mn))]
      rw [div_le_div_iff₀ (by positivity) (by norm_num)]
      have habs : |mn - mp| ≤ mp + mc + mn := by
        rw [abs_sub_le_iff]
        constructor <;> nlinarith
      nlinarith [habs]
    have hkey : ((bin : ℝ) + (mn - mp) / (2 * (mp + mc + mn))) *
          (t.sample_rate : ℝ) / (t.fft_size : ℝ) -
        (bin : ℝ) * (t.sample_rate : ℝ) / (t.fft_size : ℝ) =
        ((mn - mp) / (2 * (mp + mc + mn))) *
          ((t.sample_rate : ℝ) / (t.fft_size : ℝ)) := by ring
    rw [hkey, abs_mul, abs_of_nonneg (by positivity : (0 : ℝ) ≤
      (t.sample_rate : ℝ) / (t.fft_size : ℝ))]
    calc |(mn - mp) / (2 * (mp + mc + mn))| * ((t.sample_rate : ℝ) / (t.fft_size : ℝ))
        ≤ (1 / 2) * ((t.sample_rate : ℝ) / (t.fft_size : ℝ)) := by
          apply mul_le_mul_of_nonneg_right hoff (by positivity)
      _ = (t.sample_rate : ℝ) / (2 * (t.fft_size : ℝ)) := by ring

/-- Claim C7 (confirmed).  Silence always yields "no pitch": every spectrum whose maximum
magnitude over the scanned half-spectrum stays below the absolute floor 0.01
is rejected, and in particular a full detection pass over an all-zero
4096-sample window returns `none`. -/
theorem silence_yields_no_pitch :
    (∀ (t : Tuner) (sp : List (ℝ × ℝ)), (peak_scan t sp).1 < 0.01 →
        detect_from_spectrum t sp = none) ∧
    ∀ sr : Nat, (detect_frequency (Tuner.new sr) (List.replicate 4096 0)).1 = none := by
  constructor
  · intro t sp h
    simp only [detect_from_spectrum]
    rw [if_pos h]
  · intro sr
    simp only [detect_frequency, Tuner.new, analysis_window, plan_fft_forward,
      List.length_replicate, lt_self_iff_false, ite_false, List.take_replicate,
      min_self, windowed_zero, List.map_replicate, Nat.sub_self, List.replicate_zero,
      List.append_nil, dft_zero, detect_from_spectrum, peak_scan_replicate_zero]
    rw [if_pos (by norm_num : (0 : ℝ) < 0.01)]

/-- Witness for C7: a concrete two-bin spectrum of magnitude 1/500 per bin is
below the 0.01 floor and is rejected. -/
theorem silence_yields_no_pitch_witness :
    (peak_scan ⟨800, 4, []⟩ [((1 / 500 : ℝ), (0 : ℝ)), (1 / 500, 0)]).1 < 0.01 ∧
    detect_from_spectrum ⟨800, 4, []⟩ [((1 / 500 : ℝ), (0 : ℝ)), (1 / 500, 0)] =
      none := by
  have c : cnorm ((1 / 500 : ℝ), (0 : ℝ)) = 1 / 500 := by
    rw [cnorm, show ((1 / 500 : ℝ), (0 : ℝ)).1 ^ 2 + ((1 / 500 : ℝ), (0 : ℝ)).2 ^ 2 =
      (1 / 500 : ℝ) ^ 2 by norm_num, Real.sqrt_sq (by norm_num : (0 : ℝ) ≤ 1 / 500)]
  have heval : (peak_scan ⟨800, 4, []⟩
      [((1 / 500 : ℝ), (0 : ℝ)), (1 / 500, 0)]).1 < 0.01 := by
    norm_num [peak_scan, List.enum, List.enumFrom, c]
  exact ⟨heval, silence_yields_no_pitch.1 _ _ heval⟩

/-- Claim C8 (confirmed).  Detection is deterministic / idempotent: running
`detect_frequency` twice on the same unchanged sample buffer returns the same
pitch estimate both times, even though the first run may mutate the planner
cache. -/
theorem detect_frequency_deterministic (t : Tuner) (samples : List ℝ) :
    (detect_frequency t samples).1 =
      (detect_frequency (detect_frequency t samples).2 samples).1 := by
  obtain ⟨sr, n, p⟩ := t
  by_cases h : samples.length < n
  · simp [detect_frequency, h]
  · simp only [detect_frequency, h, if_neg, if_false, not_false_iff]
    exact detect_from_spectrum_planner_irrel sr n p _ _

end RustTuner
